import Mathlib

/-!
Verification development for the chunking + vector indexing + similarity-search
pipeline of the RAG toolkit (source files `search_utils.py` and
`rag_text_utils.py`).

Python strings are modelled as lists of characters (`PyStr`), Python floats on
the search path as rationals, the Python exceptions that the pipeline can raise
as the inductive `PyErr`, and fallible code as `Except PyErr`.  The embedding
model, the cosine-similarity routine and the ChromaDB collection are external
collaborators: the pipeline functions are parameterised by a `Backend`
structure providing them, and `chromaBackend` instantiates it with an
executable model of a ChromaDB collection (a list of chunk records).
-/

set_option maxHeartbeats 1000000

namespace Rag

/-- Python strings, modelled as lists of characters. -/
abbrev PyStr := List Char

/-- Whitespace test used by Python `str.split` and `str.strip`. -/
def isWs (c : Char) : Bool := c.isWhitespace

/-- Negation of `isWs`. -/
def notWs (c : Char) : Bool := !c.isWhitespace

/-- Python exceptions that the modelled code can raise.  `valueError` stands
for `ValueError` (raised by `range` with a zero step, and by ChromaDB when
`add` receives an empty id list); `storeError` stands for any other exception
coming out of the vector store. -/
inductive PyErr where
  | valueError : PyErr
  | storeError : PyErr
deriving DecidableEq, Repr

/-- Fuelled worker for `pySplit`.  The fuel is only a termination device: it
exceeds the length of the string, so it never runs out. -/
def pySplitAux : Nat → PyStr → List PyStr
  | 0, _ => []
  | _ + 1, [] => []
  | fuel + 1, c :: cs =>
    if isWs c then pySplitAux fuel cs
    else (c :: cs.takeWhile notWs) :: pySplitAux fuel (cs.dropWhile notWs)

/-- Python `str.split()` with no separator: split on runs of whitespace and
return the (non-empty) words. -/
def pySplit (s : PyStr) : List PyStr := pySplitAux (s.length + 1) s

/-- Python `' '.join(words)`. -/
def joinWords : List PyStr → PyStr
  | [] => []
  | [w] => w
  | w :: ws => w ++ ' ' :: joinWords ws

/-- Python `str.strip()`: remove leading and trailing whitespace. -/
def pyStrip (s : PyStr) : PyStr :=
  ((s.dropWhile isWs).reverse.dropWhile isWs).reverse

/-- Number of elements of Python `range(0, stop, step)` for a positive `step`:
the ceiling of `stop / step`. -/
def pyRangeLen (stop step : Nat) : Nat := (stop + step - 1) / step

/-- `DocumentProcessor.chunk_text` (`search_utils.py`, lines 56-66).

```
words = text.split()
chunks = []
for i in range(0, len(words), chunk_size - overlap):
    chunk = ' '.join(words[i:i + chunk_size])
    if chunk.strip():
        chunks.append(chunk)
return chunks
```

Python `range` semantics for the step `chunk_size - overlap`: a zero step
raises `ValueError` before the loop runs; a negative step (here:
`chunk_size < overlap`) yields an empty range, so the loop body never runs and
the empty list is returned; a positive step visits `0, step, 2*step, ...`
below `len(words)`, which is `List.range' 0 (pyRangeLen len step) step`. -/
def chunk_text (text : PyStr) (chunk_size overlap : Nat) : Except PyErr (List PyStr) :=
  let words := pySplit text
  if chunk_size = overlap then .error .valueError
  else if chunk_size < overlap then .ok []
  else
    .ok (((List.range' 0 (pyRangeLen words.length (chunk_size - overlap))
        (chunk_size - overlap)).map
          (fun i => joinWords ((words.drop i).take chunk_size))).filter
      (fun c => !(pyStrip c).isEmpty))

/-- `DocumentProcessor.clean_text` (`search_utils.py`, lines 47-53):
`text.strip()` followed by `' '.join(text.split())`. -/
def clean_text (text : PyStr) : PyStr := joinWords (pySplit (pyStrip text))

/-- `DocumentProcessor.process_document` (`search_utils.py`, lines 68-73):
cleans the content and chunks it, passing only `chunk_size` on to
`chunk_text`, whose `overlap` therefore always keeps its default value 50. -/
def process_document (content : PyStr) (chunk_size : Nat) : Except PyErr (List PyStr) :=
  chunk_text (clean_text content) chunk_size 50

/-- Specification-side definition, following the spec's words: the windows of
`cs` words obtained by sliding over `l` at stride `stride`, the final partial
window kept (a window is taken at every multiple of `stride` below
`l.length`). -/
def slidingWindows (l : List α) (cs stride : Nat) : List (List α) :=
  (List.range' 0 (pyRangeLen l.length stride) stride).map
    (fun i => (l.drop i).take cs)

/-- Specification-side definition: concatenate a chunk sequence after removing
the leading `ov` (overlap) elements of every chunk after the first. -/
def deOverlap (ov : Nat) : List (List α) → List α
  | [] => []
  | w :: t => w ++ (t.map (fun d => d.drop ov)).flatten

/-! ### Basic facts about the word splitter -/

theorem pySplitAux_congr : ∀ f₁ f₂ s, s.length < f₁ → s.length < f₂ →
    pySplitAux f₁ s = pySplitAux f₂ s := by
  intro f₁
  induction f₁ with
  | zero => intro f₂ s h; omega
  | succ f₁ ih =>
    intro f₂ s h₁ h₂
    match f₂, s with
    | 0, s => omega
    | f₂ + 1, [] => rfl
    | f₂ + 1, c :: cs =>
      simp only [pySplitAux]
      by_cases hc : isWs c
      · simp only [hc, if_true]
        exact ih f₂ cs (by simp at h₁; omega) (by simp at h₂; omega)
      · simp only [hc, Bool.false_eq_true, if_false]
        have hd : (cs.dropWhile notWs).length ≤ cs.length :=
          (List.dropWhile_sublist notWs).length_le
        have := ih f₂ (cs.dropWhile notWs) (by simp at h₁; omega) (by simp at h₂; omega)
        rw [this]

theorem pySplit_nil : pySplit [] = [] := rfl

theorem pySplit_cons_ws (c : Char) (cs : PyStr) (hc : isWs c = true) :
    pySplit (c :: cs) = pySplit cs := by
  simp only [pySplit, List.length_cons, pySplitAux, hc, if_true]

theorem pySplit_cons_notWs (c : Char) (cs : PyStr) (hc : isWs c = false) :
    pySplit (c :: cs) =
      (c :: cs.takeWhile notWs) :: pySplit (cs.dropWhile notWs) := by
  have hd : (cs.dropWhile notWs).length ≤ cs.length :=
    (List.dropWhile_sublist notWs).length_le
  simp only [pySplit, List.length_cons, pySplitAux, hc, Bool.false_eq_true, if_false]
  exact congrArg _ (pySplitAux_congr (cs.length + 1) ((cs.dropWhile notWs).length + 1)
    (cs.dropWhile notWs) (by omega) (by omega))

/-- Every word produced by `pySplit` is non-empty and whitespace-free. -/
theorem pySplit_good : ∀ (s : PyStr), ∀ w ∈ pySplit s, w ≠ [] ∧ w.all notWs = true := by
  have key : ∀ (n : Nat) (s : PyStr), s.length ≤ n →
      ∀ w ∈ pySplit s, w ≠ [] ∧ w.all notWs = true := by
    intro n
    induction n with
    | zero =>
      intro s hs
      match s with
      | [] => simp [pySplit_nil]
      | c :: cs => simp at hs
    | succ n ih =>
      intro s hs
      match s with
      | [] => simp [pySplit_nil]
      | c :: cs =>
        by_cases hc : isWs c
        · rw [pySplit_cons_ws c cs hc]
          exact ih cs (by simp at hs; omega)
        · rw [pySplit_cons_notWs c cs (by simpa using hc)]
          intro w hw
          rcases List.mem_cons.mp hw with hw | hw
          · subst hw
            have hcf : c.isWhitespace = false := by simpa [isWs] using hc
            refine ⟨by simp, ?_⟩
            simp only [List.all_cons, Bool.and_eq_true]
            refine ⟨by simp [notWs, hcf], ?_⟩
            rw [List.all_eq_true]
            exact fun a ha => List.mem_takeWhile_imp ha
          · have hd : (cs.dropWhile notWs).length ≤ cs.length :=
              (List.dropWhile_sublist notWs).length_le
            exact ih (cs.dropWhile notWs) (by simp at hs; omega) w hw
  exact fun s => key s.length s le_rfl

/-- Splitting a whitespace-free non-empty word followed by a space recovers
the word. -/
theorem pySplit_word_space (w rest : PyStr) (hne : w ≠ [])
    (hgood : w.all notWs = true) :
    pySplit (w ++ ' ' :: rest) = w :: pySplit rest := by
  match w with
  | [] => exact absurd rfl hne
  | c :: w' =>
    simp only [List.all_cons, Bool.and_eq_true] at hgood
    have hc : isWs c = false := by
      have := hgood.1
      simp [notWs] at this
      simp [isWs, this]
    rw [List.cons_append, pySplit_cons_notWs c _ hc]
    have hw' : ∀ a ∈ w', notWs a := by
      intro a ha
      exact (List.all_eq_true.mp hgood.2) a ha
    rw [List.takeWhile_append_of_pos hw', List.dropWhile_append_of_pos hw']
    have hsp : notWs ' ' = false := by decide
    rw [List.takeWhile_cons_of_neg (by simp [hsp]), List.dropWhile_cons_of_neg (by simp [hsp])]
    rw [pySplit_cons_ws ' ' rest (by decide)]
    simp

/-- Splitting a single whitespace-free non-empty word recovers it. -/
theorem pySplit_word (w : PyStr) (hne : w ≠ []) (hgood : w.all notWs = true) :
    pySplit w = [w] := by
  match w with
  | [] => exact absurd rfl hne
  | c :: w' =>
    simp only [List.all_cons, Bool.and_eq_true] at hgood
    have hc : isWs c = false := by
      have := hgood.1
      simp [notWs] at this
      simp [isWs, this]
    rw [pySplit_cons_notWs c _ hc]
    have hw' : ∀ a ∈ w', notWs a := by
      intro a ha
      exact (List.all_eq_true.mp hgood.2) a ha
    rw [List.takeWhile_eq_self_iff.mpr hw', List.dropWhile_eq_nil_iff.mpr (fun a ha => by simp [hw' a ha])]
    simp [pySplit_nil]

/-- Joining good words with single spaces and splitting again is the
identity. -/
theorem pySplit_joinWords : ∀ (ws : List PyStr),
    (∀ w ∈ ws, w ≠ [] ∧ w.all notWs = true) → pySplit (joinWords ws) = ws := by
  intro ws
  induction ws with
  | nil => intro _; rfl
  | cons w t ih =>
    intro h
    match t with
    | [] =>
      have := h w (by simp)
      simpa [joinWords] using pySplit_word w this.1 this.2
    | x :: t' =>
      have hw := h w (by simp)
      have : joinWords (w :: x :: t') = w ++ ' ' :: joinWords (x :: t') := rfl
      rw [this, pySplit_word_space w _ hw.1 hw.2,
        ih (fun a ha => h a (by simp [ha]))]

/-! ### Stripping never empties a string that holds a non-whitespace char -/

theorem mem_dropWhile_of_not (p : Char → Bool) :
    ∀ (l : PyStr) (c : Char), c ∈ l → p c = false → c ∈ l.dropWhile p := by
  intro l
  induction l with
  | nil => intro c hc; simp at hc
  | cons x xs ih =>
    intro c hc hpc
    by_cases hx : p x
    · rw [List.dropWhile_cons_of_pos hx]
      rcases List.mem_cons.mp hc with hc | hc
      · subst hc; rw [hx] at hpc; cases hpc
      · exact ih c hc hpc
    · rw [List.dropWhile_cons_of_neg hx]
      exact hc

theorem pyStrip_ne_nil (s : PyStr) (c : Char) (hc : c ∈ s) (hw : notWs c = true) :
    pyStrip s ≠ [] := by
  have hwf : isWs c = false := by
    simp only [notWs, Bool.not_eq_true'] at hw
    simpa [isWs] using hw
  have h1 : c ∈ s.dropWhile isWs := mem_dropWhile_of_not isWs s c hc hwf
  have h2 : c ∈ (s.dropWhile isWs).reverse := by simpa using h1
  have h3 : c ∈ ((s.dropWhile isWs).reverse.dropWhile isWs) :=
    mem_dropWhile_of_not isWs _ c h2 hwf
  have h4 : c ∈ pyStrip s := by simpa [pyStrip] using h3
  exact List.ne_nil_of_mem h4

/-! ### Arithmetic of the window count -/

theorem pyRangeLen_zero (step : Nat) : pyRangeLen 0 step = 0 := by
  unfold pyRangeLen
  rcases Nat.eq_zero_or_pos step with h | h
  · subst h; simp
  · exact Nat.div_eq_of_lt (by omega)

theorem pyRangeLen_pos (len step : Nat) (hs : 0 < step) (hl : 0 < len) :
    0 < pyRangeLen len step := by
  unfold pyRangeLen
  rw [Nat.lt_iff_add_one_le, Nat.le_div_iff_mul_le hs]
  omega

theorem pyRangeLen_succ (len step : Nat) (hs : 0 < step) (hl : 0 < len) :
    pyRangeLen len step = pyRangeLen (len - step) step + 1 := by
  unfold pyRangeLen
  by_cases hls : len ≤ step
  · have h1 : len - step = 0 := by omega
    have h2 : (0 + step - 1) / step = 0 := Nat.div_eq_of_lt (by omega)
    rw [h1, h2]
    exact Nat.div_eq_of_lt_le (by omega) (by omega)
  · have h1 : len + step - 1 = ((len - step) + step - 1) + step := by omega
    rw [h1, Nat.add_div_right _ hs]

theorem mul_lt_of_lt_pyRangeLen (len step j : Nat) (hs : 0 < step)
    (hj : j < pyRangeLen len step) : step * j < len := by
  unfold pyRangeLen at hj
  have h1 : (j + 1) * step ≤ len + step - 1 := (Nat.le_div_iff_mul_le hs).mp hj
  rw [Nat.succ_mul] at h1
  have h2 : step * j = j * step := Nat.mul_comm step j
  omega

/-! ### Shape of the sliding windows -/

theorem slidingWindows_nil (cs stride : Nat) :
    slidingWindows ([] : List α) cs stride = [] := by
  simp [slidingWindows, pyRangeLen_zero]

theorem slidingWindows_cons (l : List α) (cs stride : Nat) (hs : 0 < stride)
    (hl : l ≠ []) :
    slidingWindows l cs stride =
      l.take cs :: slidingWindows (l.drop stride) cs stride := by
  have hlen : 0 < l.length := List.length_pos.mpr hl
  have hk := pyRangeLen_succ l.length stride hs hlen
  unfold slidingWindows
  rw [hk, List.range'_succ]
  simp only [List.map_cons, List.drop_zero, Nat.zero_add]
  congr 1
  have hshift : List.range' stride (pyRangeLen (l.length - stride) stride) stride =
      (List.range' 0 (pyRangeLen (l.length - stride) stride) stride).map
        (stride + ·) := by
    rw [List.map_add_range', Nat.add_zero]
  rw [List.length_drop, hshift, List.map_map]
  apply List.map_congr_left
  intro i _
  simp only [Function.comp_apply]
  rw [List.drop_drop, Nat.add_comm]

theorem slidingWindows_ne_nil (l : List α) (cs stride : Nat) (hs : 0 < stride)
    (hl : l ≠ []) : slidingWindows l cs stride ≠ [] := by
  rw [slidingWindows_cons l cs stride hs hl]
  simp

/-- Key reconstruction lemma: de-overlapping the sliding windows gives back
the original list. -/
theorem deOverlap_slidingWindows (l : List α) (cs stride ov : Nat)
    (hs : 0 < stride) (hcs : cs = stride + ov) :
    deOverlap ov (slidingWindows l cs stride) = l := by
  have key : ∀ (n : Nat) (l : List α), l.length ≤ n →
      deOverlap ov (slidingWindows l cs stride) = l := by
    intro n
    induction n with
    | zero =>
      intro l hl
      have : l = [] := List.eq_nil_of_length_eq_zero (by omega)
      subst this
      simp [slidingWindows_nil, deOverlap]
    | succ n ih =>
      intro l hl
      by_cases hnil : l = []
      · subst hnil
        simp [slidingWindows_nil, deOverlap]
      · rw [slidingWindows_cons l cs stride hs hnil]
        have hlen : 0 < l.length := List.length_pos.mpr hnil
        have hdlen : (l.drop stride).length ≤ n := by
          rw [List.length_drop]; omega
        have hIH := ih (l.drop stride) hdlen
        rcases hW : slidingWindows (l.drop stride) cs stride with _ | ⟨w, t⟩
        · -- no further window: the tail `l.drop stride` is empty
          have hdnil : l.drop stride = [] := by
            by_contra hne
            exact slidingWindows_ne_nil (l.drop stride) cs stride hs hne hW
          have hlcs : l.length ≤ cs := by
            have := List.drop_eq_nil_iff.mp hdnil
            omega
          simp [deOverlap, List.take_of_length_le hlcs]
        · -- at least one further window; it starts with `(l.drop stride).take cs`
          have hdnil : l.drop stride ≠ [] := by
            intro hcontra
            rw [hcontra, slidingWindows_nil] at hW
            cases hW
          have hWc := slidingWindows_cons (l.drop stride) cs stride hs hdnil
          rw [hW] at hWc
          have hw : w = (l.drop stride).take cs := by
            exact (List.cons.injEq _ _ _ _).mp hWc |>.1
          rw [hW] at hIH
          simp only [deOverlap, List.map_cons, List.flatten_cons] at hIH ⊢
          -- hIH : w ++ (t.map (drop ov)).flatten = l.drop stride
          have hst : cs - ov = stride := by omega
          have htake : l.take cs = l.take stride ++ (l.drop stride).take ov := by
            rw [hcs]
            exact List.take_add l stride ov
          have hdropov : (w.drop ov) = ((l.drop stride).drop ov).take stride := by
            rw [hw, List.drop_take, hst]
          have htake2 : (l.drop stride).take ov ++ ((l.drop stride).drop ov).take stride =
              (l.drop stride).take cs := by
            have hcs2 : cs = ov + stride := by omega
            rw [hcs2, List.take_add]
          calc l.take cs ++ (w.drop ov ++ (t.map (fun d => d.drop ov)).flatten)
              = (l.take stride ++ (l.drop stride).take ov) ++
                (((l.drop stride).drop ov).take stride ++
                  (t.map (fun d => d.drop ov)).flatten) := by rw [htake, hdropov]
            _ = l.take stride ++ (((l.drop stride).take ov ++
                  ((l.drop stride).drop ov).take stride) ++
                  (t.map (fun d => d.drop ov)).flatten) := by
                  simp [List.append_assoc]
            _ = l.take stride ++ ((l.drop stride).take cs ++
                  (t.map (fun d => d.drop ov)).flatten) := by rw [htake2]
            _ = l.take stride ++ (w ++ (t.map (fun d => d.drop ov)).flatten) := by rw [hw]
            _ = l.take stride ++ l.drop stride := by rw [hIH]
            _ = l := List.take_append_drop _ _
  exact key l.length l le_rfl

/-! ### From `chunk_text` to the sliding windows -/

theorem mem_lt_of_mem_winStarts (len st i : Nat) (hs : 0 < st)
    (hi : i ∈ List.range' 0 (pyRangeLen len st) st) : i < len := by
  rw [List.mem_range'] at hi
  obtain ⟨j, hj, rfl⟩ := hi
  have := mul_lt_of_lt_pyRangeLen len st j hs hj
  omega

theorem window_mem_subset (l : List α) (cs st : Nat)
    (w : List α) (hw : w ∈ slidingWindows l cs st) : ∀ u ∈ w, u ∈ l := by
  unfold slidingWindows at hw
  rw [List.mem_map] at hw
  obtain ⟨i, _, rfl⟩ := hw
  intro u hu
  exact ((List.take_sublist _ _).trans (List.drop_sublist _ _)).mem hu

theorem window_ne_nil (l : List α) (cs st : Nat) (hs : 0 < st) (hcs : 0 < cs)
    (w : List α) (hw : w ∈ slidingWindows l cs st) : w ≠ [] := by
  unfold slidingWindows at hw
  rw [List.mem_map] at hw
  obtain ⟨i, hi, rfl⟩ := hw
  have hil : i < l.length := mem_lt_of_mem_winStarts l.length st i hs hi
  intro hcontra
  rcases List.take_eq_nil_iff.mp hcontra with h | h
  · omega
  · rw [List.drop_eq_nil_iff] at h
    omega

theorem joinWords_cons (u : PyStr) (rest : List PyStr) :
    ∃ z, joinWords (u :: rest) = u ++ z := by
  match rest with
  | [] => exact ⟨[], by simp [joinWords]⟩
  | x :: t => exact ⟨' ' :: joinWords (x :: t), rfl⟩

/-- On the happy path (`overlap < chunk_size`) the chunk list is exactly the
join of the sliding windows of the word list: the `if chunk.strip()` filter in
the source never drops anything, because each window is non-empty and starts
with a non-whitespace character. -/
theorem chunk_text_eq_windows (text : PyStr) (cs ov : Nat) (hov : ov < cs) :
    chunk_text text cs ov =
      .ok ((slidingWindows (pySplit text) cs (cs - ov)).map joinWords) := by
  have hne : ¬ cs = ov := by omega
  have hnlt : ¬ cs < ov := by omega
  unfold chunk_text
  simp only [hne, hnlt, if_false]
  congr 1
  have hcollapse : (List.range' 0 (pyRangeLen (pySplit text).length (cs - ov))
        (cs - ov)).map (fun i => joinWords (((pySplit text).drop i).take cs)) =
      (slidingWindows (pySplit text) cs (cs - ov)).map joinWords := by
    unfold slidingWindows
    rw [List.map_map]
    rfl
  rw [hcollapse]
  have hfilter : ∀ c ∈ (slidingWindows (pySplit text) cs (cs - ov)).map joinWords,
      (!(pyStrip c).isEmpty) = true := by
    intro c hc
    rw [List.mem_map] at hc
    obtain ⟨w, hwmem, rfl⟩ := hc
    have hwne : w ≠ [] :=
      window_ne_nil (pySplit text) cs (cs - ov) (by omega) (by omega) w hwmem
    match w, hwne with
    | u :: rest, _ =>
      have hu : u ∈ pySplit text :=
        window_mem_subset (pySplit text) cs (cs - ov) _ hwmem u (by simp)
      have hugood := pySplit_good text u hu
      match u, hugood with
      | a :: u', ⟨_, hall⟩ =>
        have ha : notWs a = true := by
          simp only [List.all_cons, Bool.and_eq_true] at hall
          exact hall.1
        obtain ⟨z, hz⟩ := joinWords_cons (a :: u') rest
        have hmem : a ∈ joinWords ((a :: u') :: rest) := by
          rw [hz]; simp
        have := pyStrip_ne_nil _ a hmem ha
        simpa [List.isEmpty_iff] using this
  rw [List.filter_eq_self.mpr hfilter]

/-- The word sequences of the produced chunks are exactly the sliding
windows: splitting undoes the join on every window. -/
theorem chunk_windows_split (text : PyStr) (cs ov : Nat) :
    ((slidingWindows (pySplit text) cs (cs - ov)).map joinWords).map pySplit =
      slidingWindows (pySplit text) cs (cs - ov) := by
  rw [List.map_map]
  have hcongr : ∀ w ∈ slidingWindows (pySplit text) cs (cs - ov),
      (pySplit ∘ joinWords) w = id w := by
    intro w hw
    simp only [Function.comp_apply, id_eq]
    have hgood : ∀ u ∈ w, u ≠ [] ∧ u.all notWs = true := by
      intro u hu
      exact pySplit_good text u
        (window_mem_subset (pySplit text) cs (cs - ov) w hw u hu)
    exact pySplit_joinWords w hgood
  rw [List.map_congr_left hcongr, List.map_id]


/-! ### Claim C1 -/

/-- Claim C1, amended.  For every text and every pair `(chunk_size, overlap)`
with `overlap < chunk_size`, `chunk_text` succeeds and: the word sequences of
the produced chunks are exactly the sliding windows of `chunk_size` words at
stride `chunk_size - overlap` (final partial window kept); concatenating the
chunks after removing the leading `overlap` words of every chunk after the
first reconstructs the original word sequence exactly; empty text gives an
empty chunk sequence; and text with at most `chunk_size - overlap` words gives
a single chunk containing all words.  (The original claim's edge case — any
text shorter than `chunk_size` gives a single chunk — is false; see the
counterexample.) -/
theorem chunk_text_window_reconstruction (text : PyStr) (cs ov : Nat)
    (hov : ov < cs) :
    ∃ chunks, chunk_text text cs ov = .ok chunks ∧
      chunks.map pySplit = slidingWindows (pySplit text) cs (cs - ov) ∧
      deOverlap ov (chunks.map pySplit) = pySplit text ∧
      (pySplit text = [] → chunks = []) ∧
      (pySplit text ≠ [] → (pySplit text).length ≤ cs - ov →
        chunks = [joinWords (pySplit text)]) := by
  refine ⟨(slidingWindows (pySplit text) cs (cs - ov)).map joinWords,
    chunk_text_eq_windows text cs ov hov, chunk_windows_split text cs ov, ?_, ?_, ?_⟩
  · rw [chunk_windows_split text cs ov]
    exact deOverlap_slidingWindows (pySplit text) cs (cs - ov) ov (by omega) (by omega)
  · intro hnil
    rw [hnil, slidingWindows_nil]
    rfl
  · intro hne hlen
    have hcons := slidingWindows_cons (pySplit text) cs (cs - ov) (by omega) hne
    have hdrop : (pySplit text).drop (cs - ov) = [] := List.drop_eq_nil_iff.mpr hlen
    rw [hdrop, slidingWindows_nil] at hcons
    have htake : (pySplit text).take cs = pySplit text :=
      List.take_of_length_le (by omega)
    rw [hcons, htake]
    rfl

/-- Claim C1, counterexample to the original edge case.  The text `"a b"` has
two words, fewer than `chunk_size = 3`; with `overlap = 2` (stride 1) the code
returns the two chunks `"a b"` and `"b"`, not a single chunk. -/
theorem chunk_text_short_text_two_chunks :
    chunk_text ['a', ' ', 'b'] 3 2 = .ok [['a', ' ', 'b'], ['b']] ∧
      (pySplit ['a', ' ', 'b']).length < 3 := by
  exact ⟨rfl, by decide⟩

/-- Witness for `chunk_text_window_reconstruction` at a concrete input. -/
theorem chunk_text_window_reconstruction_witness :
    ∃ chunks, chunk_text ['a', ' ', 'b'] 52 50 = .ok chunks ∧
      chunks.map pySplit = slidingWindows (pySplit ['a', ' ', 'b']) 52 2 ∧
      deOverlap 50 (chunks.map pySplit) = pySplit ['a', ' ', 'b'] ∧
      (pySplit ['a', ' ', 'b'] = [] → chunks = []) ∧
      (pySplit ['a', ' ', 'b'] ≠ [] → (pySplit ['a', ' ', 'b']).length ≤ 52 - 50 →
        chunks = [joinWords (pySplit ['a', ' ', 'b'])]) :=
  chunk_text_window_reconstruction ['a', ' ', 'b'] 52 50 (by decide)

/-! ### Claim C3 -/

/-- Claim C3, evaluation at the failing inputs.  The claim (and the spec)
require a fail-fast `InvalidConfiguration` error whenever
`overlap >= chunk_size`.  The code does not do this: for
`overlap > chunk_size` (here `chunk_size = 2`, `overlap = 3` on the text
`"a b c"`) the Python `range` receives a negative step, the loop body never
runs, and the code silently returns an empty chunk list, dropping all words;
for `overlap = chunk_size` (step 0) `range` raises a bare `ValueError`, not an
`InvalidConfiguration` error. -/
theorem chunk_text_invalid_overlap_behaviour :
    chunk_text ['a', ' ', 'b', ' ', 'c'] 2 3 = .ok [] ∧
      chunk_text ['a', ' ', 'b', ' ', 'c'] 2 2 = .error .valueError :=
  ⟨rfl, rfl⟩

/-! ### Data model of the pipeline -/

/-- Embedding vectors.  The numeric contents of the vectors are irrelevant to
the verified claims; rationals stand in for Python floats. -/
abbrev Vec := List ℚ

/-- Caller-supplied document metadata: a Python dict, modelled as an
association list.  The pipeline only passes it through. -/
abbrev MetaDict := List (PyStr × PyStr)

/-- Metadata stored with every chunk (`search_utils.py`, lines 168-174): the
caller's metadata merged with the lineage fields `parent_doc_id`,
`chunk_index` and `chunk_count`.  In the source the lineage fields are written
after the `**metadata` splat, so they always win the merge; they are modelled
as named fields.  The wall-clock `timestamp` field is not modelled. -/
structure ChunkMeta where
  extra : MetaDict
  parent_doc_id : PyStr
  chunk_index : Nat
  chunk_count : Nat
deriving DecidableEq, Repr

/-- One record of the vector store: id, document text, embedding and
metadata, as passed to `collection.add`. -/
structure ChunkRec where
  id : PyStr
  content : PyStr
  embedding : Vec
  meta : ChunkMeta
deriving DecidableEq, Repr

/-- The `Document` dataclass (`search_utils.py`, lines 21-33), restricted to
the fields the batch ingestion reads; the `timestamp` field is not
modelled. -/
structure Doc where
  id : PyStr
  content : PyStr
  metadata : MetaDict
deriving DecidableEq, Repr

/-- The `QueryResult` dataclass (`search_utils.py`, lines 35-42); the unused
`embedding` field is not modelled. -/
structure QueryResult where
  document_id : PyStr
  content : PyStr
  similarity_score : ℚ
  metadata : ChunkMeta
deriving DecidableEq, Repr

/-- One hit as returned by the vector store's `query`: aligned entries of the
`ids`/`documents`/`metadatas`/`distances` arrays of the ChromaDB result.  The
distance is optional because the code guards for a missing `distances` key. -/
structure Hit where
  id : PyStr
  content : PyStr
  meta : ChunkMeta
  distance : Option ℚ
deriving DecidableEq, Repr

/-- External collaborators of the pipeline, kept abstract: the sentence
embedding model (`encodeOne`, one vector per text, so the batched
`EmbeddingManager.encode` is its `map`), the scikit-learn cosine similarity
(`sim`, a black box), and the ChromaDB collection operations, which may raise.
`σ` is the state of the collection. -/
structure Backend (σ : Type) where
  encodeOne : PyStr → Vec
  sim : Vec → Vec → ℚ
  add : σ → List ChunkRec → Except PyErr σ
  get_where : σ → PyStr → Except PyErr (List ChunkRec)
  delete_ids : σ → List PyStr → Except PyErr σ
  query : σ → Vec → Nat → Option MetaDict → Except PyErr (List Hit)

/-- Decimal digit character. -/
def digitChar (n : Nat) : Char := Char.ofNat (48 + n)

/-- Fuelled worker for `natToChars`. -/
def natToCharsAux : Nat → Nat → PyStr
  | 0, _ => []
  | fuel + 1, n =>
    if n < 10 then [digitChar n]
    else natToCharsAux fuel (n / 10) ++ [digitChar (n % 10)]

/-- Decimal rendering of a natural number, as Python `str(i)` inside an
f-string. -/
def natToChars (n : Nat) : PyStr := natToCharsAux (n + 1) n

/-- The literal `"_chunk_"` of the chunk-id f-string. -/
def chunkSep : PyStr := ['_', 'c', 'h', 'u', 'n', 'k', '_']

/-- The chunk id `f"{doc_id}_chunk_{i}"` (`search_utils.py`, line 163). -/
def chunkId (doc_id : PyStr) (i : Nat) : PyStr := doc_id ++ chunkSep ++ natToChars i

/-- The record-building loop of `add_document` (`search_utils.py`, lines
157-175): one record per `(chunk, embedding)` pair of
`enumerate(zip(chunks, embeddings))`, where `embeddings = encode(chunks)` is
one vector per chunk. -/
def buildChunkRecs (B : Backend σ) (doc_id : PyStr) (metadata : MetaDict)
    (chunks : List PyStr) : List ChunkRec :=
  (chunks.zip (chunks.map B.encodeOne)).enum.map (fun p =>
    { id := chunkId doc_id p.1
      content := p.2.1
      embedding := p.2.2
      meta :=
        { extra := metadata
          parent_doc_id := doc_id
          chunk_index := p.1
          chunk_count := chunks.length } : ChunkRec })

/-- `AdvancedRAGPipeline.add_document` (`search_utils.py`, lines 136-186).
The `doc_id is None` branch (a fresh UUID) is not modelled: the id is an
explicit argument.  The chunking step passes only `chunk_size`, so
`chunk_text` runs with its default `overlap = 50`; a `ValueError` raised
there propagates.  `collection.add` is always called, with whatever lists the
loop produced. -/
def add_document (B : Backend σ) (s : σ) (content doc_id : PyStr)
    (metadata : MetaDict) (chunk_size : Nat) : Except PyErr (List PyStr × σ) :=
  match process_document content chunk_size with
  | .error e => .error e
  | .ok chunks =>
    match B.add s (buildChunkRecs B doc_id metadata chunks) with
    | .error e => .error e
    | .ok s' => .ok ((buildChunkRecs B doc_id metadata chunks).map (fun r => r.id), s')

/-- Inner loop of `add_documents_batch` (`search_utils.py`, lines 201-208):
ingest the documents of one batch in order, concatenating the returned
chunk ids.  An exception aborts the loop and propagates. -/
def ingest_docs (B : Backend σ) (cs : Nat) : σ → List Doc → Except PyErr (List PyStr × σ)
  | s, [] => .ok ([], s)
  | s, d :: ds =>
    match add_document B s d.content d.id d.metadata cs with
    | .error e => .error e
    | .ok (ids, s₁) =>
      match ingest_docs B cs s₁ ds with
      | .error e => .error e
      | .ok (ids', s₂) => .ok (ids ++ ids', s₂)

/-- Outer loop of `add_documents_batch`: process the batch slices in order. -/
def ingest_batches (B : Backend σ) (cs : Nat) :
    σ → List (List Doc) → Except PyErr (List PyStr × σ)
  | s, [] => .ok ([], s)
  | s, b :: bs =>
    match ingest_docs B cs s b with
    | .error e => .error e
    | .ok (ids, s₁) =>
      match ingest_batches B cs s₁ bs with
      | .error e => .error e
      | .ok (ids', s₂) => .ok (ids ++ ids', s₂)

/-- `AdvancedRAGPipeline.add_documents_batch` (`search_utils.py`, lines
188-213): slice the document list into groups of `batch_size` (the slices of
Python `range(0, len(documents), batch_size)`) and ingest each group with
`add_document`.  There is no exception handling: a failure on one document
propagates out of the whole call.  A zero `batch_size` raises `ValueError`
from `range`. -/
def add_documents_batch (B : Backend σ) (s : σ) (docs : List Doc)
    (chunk_size batch_size : Nat) : Except PyErr (List PyStr × σ) :=
  if batch_size = 0 then .error .valueError
  else
    ingest_batches B chunk_size s
      ((List.range' 0 (pyRangeLen docs.length batch_size) batch_size).map
        (fun i => (docs.drop i).take batch_size))

/-- Distance-to-similarity conversion of `search` (`search_utils.py`, lines
242-245): `1 - distance`, or `0.0` when the store returned no distances. -/
def similarity_from_distance : Option ℚ → ℚ
  | some d => 1 - d
  | none => 0

/-- `AdvancedRAGPipeline.search` (`search_utils.py`, lines 215-257): embed the
query, query the store for `n_results` nearest hits, convert each distance to
`similarity = 1 - distance`, and keep a hit iff `similarity >= min_similarity`. -/
def search (B : Backend σ) (s : σ) (q : PyStr) (n_results : Nat)
    (filt : Option MetaDict) (min_similarity : ℚ) :
    Except PyErr (List QueryResult) :=
  match B.query s (B.encodeOne q) n_results filt with
  | .error e => .error e
  | .ok hits =>
    .ok (hits.filterMap (fun h =>
      if min_similarity ≤ similarity_from_distance h.distance then
        some { document_id := h.id
               content := h.content
               similarity_score := similarity_from_distance h.distance
               metadata := h.meta }
      else none))

/-- `AdvancedRAGPipeline.delete_document` (`search_utils.py`, lines 259-277):
fetch the chunks whose `parent_doc_id` matches, delete them by id if any
exist, return `True`; return `False` if none exist; and catch every exception
from the store, returning `False`.  (On the caught-exception path the model
keeps the pre-call state; only the returned boolean is observable through the
public interface.) -/
def delete_document (B : Backend σ) (s : σ) (doc_id : PyStr) : Bool × σ :=
  match B.get_where s doc_id with
  | .error _ => (false, s)
  | .ok recs =>
    if recs.isEmpty then (false, s)
    else
      match B.delete_ids s (recs.map (fun r => r.id)) with
      | .error _ => (false, s)
      | .ok s' => (true, s')

/-- `AdvancedRAGPipeline.update_document` (`search_utils.py`, lines 279-296):
delete (result ignored), then re-add. -/
def update_document (B : Backend σ) (s : σ) (doc_id new_content : PyStr)
    (new_metadata : MetaDict) (chunk_size : Nat) : Except PyErr (List PyStr × σ) :=
  let del := delete_document B s doc_id
  add_document B del.2 new_content doc_id new_metadata chunk_size

/-- Stable insertion used to model Python's stable `list.sort`: `x` is placed
before the first element it is allowed to precede. -/
def insertStable (bef : α → α → Bool) (x : α) : List α → List α
  | [] => [x]
  | y :: ys => if bef x y then x :: y :: ys else y :: insertStable bef x ys

/-- Stable sort (extensionally the behaviour of Python `list.sort` for the
order `bef`, when `bef a b` says `a` may come before `b` and ties are total). -/
def sortStable (bef : α → α → Bool) : List α → List α
  | [] => []
  | x :: xs => insertStable bef x (sortStable bef xs)

/-- Comparison used by the rerank sort: `sort(key=similarity_score,
reverse=True)` puts `a` before `b` iff `b`'s score is at most `a`'s, keeping
ties in their pre-sort order (Python's sort is stable). -/
def befScore (a b : QueryResult) : Bool := decide (b.similarity_score ≤ a.similarity_score)

/-- Rescoring step of the rerank loop (`search_utils.py`, lines 362-370):
re-embed the stored text and recompute the similarity against the query
embedding. -/
def rescoreWith (B : Backend σ) (q : PyStr) (r : QueryResult) : QueryResult :=
  { r with similarity_score := B.sim (B.encodeOne q) (B.encodeOne r.content) }

/-- `AdvancedRAGPipeline.semantic_search_with_reranking` (`search_utils.py`,
lines 345-375): initial `search` with default `min_similarity = 0`, early
return on no results, rescoring of every candidate, stable descending sort by
the recomputed score, and truncation to `rerank_top_k`. -/
def semantic_search_with_reranking (B : Backend σ) (s : σ) (q : PyStr)
    (n_results rerank_top_k : Nat) : Except PyErr (List QueryResult) :=
  match search B s q n_results none 0 with
  | .error e => .error e
  | .ok initial =>
    if initial.isEmpty then
      .ok []
    else
      .ok ((sortStable befScore (initial.map (rescoreWith B q))).take rerank_top_k)

/-- Executable model of the ChromaDB collection used by the pipeline: state is
the list of stored records.  `add` rejects an empty id list (ChromaDB
validates that `ids` is a non-empty list and raises `ValueError` otherwise);
`get` with a `where` clause on `parent_doc_id` filters the records; `delete`
removes the records whose id is listed; `query` returns the `k` nearest
records by the store's distance function `distf`, nearest first.  Duplicate-id
validation of `add` is not modelled (no verified claim depends on it). -/
def chromaBackend (enc : PyStr → Vec) (simf distf : Vec → Vec → ℚ) :
    Backend (List ChunkRec) where
  encodeOne := enc
  sim := simf
  add := fun s recs =>
    if recs.isEmpty then .error .valueError else .ok (s ++ recs)
  get_where := fun s pid =>
    .ok (s.filter (fun r => decide (r.meta.parent_doc_id = pid)))
  delete_ids := fun s ids =>
    .ok (s.filter (fun r => !(decide (r.id ∈ ids))))
  query := fun s qv k _filt =>
    .ok (((sortStable (fun a b => decide (distf qv a.embedding ≤ distf qv b.embedding)) s).take k).map
      (fun r => { id := r.id, content := r.content, meta := r.meta,
                  distance := some (distf qv r.embedding) }))

/-- Trivial embedding function used for concrete witnesses: every text maps
to the empty vector. -/
def encZero : PyStr → Vec := fun _ => []

/-- Trivial similarity/distance function used for concrete witnesses. -/
def simZero : Vec → Vec → ℚ := fun _ _ => 0

/-- Unfolding lemma for the `add` operation of the ChromaDB model. -/
theorem chromaBackend_add (enc : PyStr → Vec) (simf distf : Vec → Vec → ℚ)
    (s : List ChunkRec) (recs : List ChunkRec) :
    (chromaBackend enc simf distf).add s recs =
      if recs.isEmpty then .error .valueError else .ok (s ++ recs) := rfl

/-- Unfolding lemma for the `get` operation of the ChromaDB model. -/
theorem chromaBackend_get_where (enc : PyStr → Vec) (simf distf : Vec → Vec → ℚ)
    (s : List ChunkRec) (pid : PyStr) :
    (chromaBackend enc simf distf).get_where s pid =
      .ok (s.filter (fun r => decide (r.meta.parent_doc_id = pid))) := rfl

/-- Unfolding lemma for the `delete` operation of the ChromaDB model. -/
theorem chromaBackend_delete_ids (enc : PyStr → Vec) (simf distf : Vec → Vec → ℚ)
    (s : List ChunkRec) (ids : List PyStr) :
    (chromaBackend enc simf distf).delete_ids s ids =
      .ok (s.filter (fun r => !(decide (r.id ∈ ids)))) := rfl

/-! ### Claim C4 -/

/-- Claim C4.  Every successful ingestion through `add_document` appends a
block of records to the collection; the `i`-th new record has
`chunk_id = f"{doc_id}_chunk_{i}"`, `chunk_index = i` (hence
`0 <= chunk_index < chunk_count`), `chunk_count` equal to the number `n` of
new records, `parent_doc_id = doc_id`, and the returned chunk-id list is
exactly the ids of the new records (so its length is `n`). -/
theorem add_document_chunk_invariants (enc : PyStr → Vec) (simf distf : Vec → Vec → ℚ)
    (s : List ChunkRec) (content doc_id : PyStr) (md : MetaDict) (cs : Nat)
    (ids : List PyStr) (s' : List ChunkRec)
    (h : add_document (chromaBackend enc simf distf) s content doc_id md cs =
      .ok (ids, s')) :
    ∃ recs : List ChunkRec, s' = s ++ recs ∧ ids = recs.map (fun r => r.id) ∧
      ∀ i (hi : i < recs.length),
        (recs.get ⟨i, hi⟩).id = chunkId doc_id i ∧
        (recs.get ⟨i, hi⟩).meta.chunk_index = i ∧
        (recs.get ⟨i, hi⟩).meta.chunk_count = recs.length ∧
        (recs.get ⟨i, hi⟩).meta.parent_doc_id = doc_id := by
  rcases hpd : process_document content cs with e | chunks
  · rw [add_document] at h
    simp only [hpd] at h
    exact Except.noConfusion h
  · rw [add_document] at h
    simp only [hpd] at h
    rcases hadd : (chromaBackend enc simf distf).add s
        (buildChunkRecs (chromaBackend enc simf distf) doc_id md chunks) with e2 | s2
    · simp only [hadd] at h
      exact Except.noConfusion h
    · simp only [hadd, Except.ok.injEq, Prod.mk.injEq] at h
      obtain ⟨hids, hs2⟩ := h
      rw [chromaBackend_add] at hadd
      by_cases hemp :
          (buildChunkRecs (chromaBackend enc simf distf) doc_id md chunks).isEmpty
      · rw [if_pos hemp] at hadd
        cases hadd
      · rw [if_neg hemp] at hadd
        simp only [Except.ok.injEq] at hadd
        refine ⟨buildChunkRecs (chromaBackend enc simf distf) doc_id md chunks,
          by rw [← hs2, ← hadd], hids.symm, ?_⟩
        intro i hi
        have hlen : (buildChunkRecs (chromaBackend enc simf distf) doc_id md chunks).length =
            chunks.length := by
          simp [buildChunkRecs]
        have hic : i < chunks.length := by omega
        have hget : (buildChunkRecs (chromaBackend enc simf distf) doc_id md chunks).get ⟨i, hi⟩ =
            { id := chunkId doc_id i
              content := chunks.get ⟨i, hic⟩
              embedding := (chunks.map (chromaBackend enc simf distf).encodeOne).get
                ⟨i, by simpa using hic⟩
              meta :=
                { extra := md
                  parent_doc_id := doc_id
                  chunk_index := i
                  chunk_count := chunks.length } } := by
          simp only [buildChunkRecs, List.get_eq_getElem, List.getElem_map,
            List.getElem_enum, List.getElem_zip]
        rw [hget, hlen]
        exact ⟨rfl, rfl, rfl, rfl⟩

/-- Witness for `add_document_chunk_invariants` at a concrete input (content
`"a"`, one chunk). -/
theorem add_document_chunk_invariants_witness :
    ∃ recs : List ChunkRec,
      [({ id := ['d', '_', 'c', 'h', 'u', 'n', 'k', '_', '0'], content := ['a'],
          embedding := [],
          meta := { extra := [], parent_doc_id := ['d'], chunk_index := 0,
                    chunk_count := 1 } } : ChunkRec)] = [] ++ recs ∧
      [['d', '_', 'c', 'h', 'u', 'n', 'k', '_', '0']] = recs.map (fun r => r.id) ∧
      ∀ i (hi : i < recs.length),
        (recs.get ⟨i, hi⟩).id = chunkId ['d'] i ∧
        (recs.get ⟨i, hi⟩).meta.chunk_index = i ∧
        (recs.get ⟨i, hi⟩).meta.chunk_count = recs.length ∧
        (recs.get ⟨i, hi⟩).meta.parent_doc_id = ['d'] :=
  add_document_chunk_invariants encZero simZero simZero [] ['a'] ['d'] [] 51
    [['d', '_', 'c', 'h', 'u', 'n', 'k', '_', '0']]
    [{ id := ['d', '_', 'c', 'h', 'u', 'n', 'k', '_', '0'], content := ['a'],
       embedding := [],
       meta := { extra := [], parent_doc_id := ['d'], chunk_index := 0,
                 chunk_count := 1 } }] rfl

/-! ### Claim C5 -/

/-- Claim C5, evaluation at the failing input.  The claim says that ingesting
a document with empty content returns an empty chunk-id sequence and invokes
no store operation.  In the code `collection.add` is called unconditionally;
with empty content the chunk loop produces empty lists and ChromaDB's `add`
rejects an empty `ids` list with `ValueError`, so the ingestion raises instead
of returning an empty sequence. -/
theorem add_document_empty_content_raises :
    add_document (chromaBackend encZero simZero simZero) [] [] ['d'] [] 500 =
      .error .valueError := rfl

/-! ### Claim C9 -/

/-- Claim C9.  `process_document` forwards only `chunk_size` to `chunk_text`,
whose overlap is therefore always its default 50 (first conjunct); hence
`add_document` (and `update_document`) with `chunk_size = 50` always raises
the `ValueError` produced by a zero-step `range`, for every backend and every
content (second and third conjuncts); and `chunk_size < 50` makes the
chunking produce an empty chunk list for every content — every word silently
dropped (fourth conjunct). -/
theorem process_document_fixed_overlap :
    (∀ (content : PyStr) (cs : Nat),
      process_document content cs = chunk_text (clean_text content) cs 50) ∧
    (∀ (σ : Type) (B : Backend σ) (s : σ) (content doc_id : PyStr) (md : MetaDict),
      add_document B s content doc_id md 50 = .error .valueError) ∧
    (∀ (σ : Type) (B : Backend σ) (s : σ) (doc_id content : PyStr) (md : MetaDict),
      update_document B s doc_id content md 50 = .error .valueError) ∧
    (∀ (content : PyStr) (cs : Nat), cs < 50 →
      process_document content cs = .ok []) := by
  have herr : ∀ (content : PyStr), process_document content 50 = .error .valueError := by
    intro content
    rw [process_document, chunk_text, if_pos rfl]
  have hadd : ∀ (σ : Type) (B : Backend σ) (s : σ) (content doc_id : PyStr)
      (md : MetaDict), add_document B s content doc_id md 50 = .error .valueError := by
    intro σ B s content doc_id md
    rw [add_document, herr content]
  refine ⟨fun _ _ => rfl, hadd, ?_, ?_⟩
  · intro σ B s doc_id content md
    rw [update_document, hadd]
  · intro content cs hcs
    rw [process_document, chunk_text]
    have h1 : ¬ cs = 50 := by omega
    have h2 : cs < 50 := hcs
    simp [h1, h2]

/-- Witness for `process_document_fixed_overlap`: the `chunk_size < 50`
conjunct at a concrete input. -/
theorem process_document_fixed_overlap_witness :
    process_document ['a', ' ', 'b'] 10 = .ok [] :=
  process_document_fixed_overlap.2.2.2 ['a', ' ', 'b'] 10 (by decide)

/-! ### Stable sort lemmas -/

theorem mem_insertStable (bef : α → α → Bool) (x : α) :
    ∀ (l : List α) (a : α), a ∈ insertStable bef x l ↔ a = x ∨ a ∈ l := by
  intro l
  induction l with
  | nil => intro a; simp [insertStable]
  | cons y ys ih =>
    intro a
    rw [insertStable]
    by_cases hxy : bef x y
    · rw [if_pos hxy]
      simp [or_comm, or_assoc, or_left_comm]
    · rw [if_neg hxy]
      simp only [List.mem_cons, ih a]
      tauto

theorem insertStable_perm (bef : α → α → Bool) (x : α) :
    ∀ (l : List α), (insertStable bef x l).Perm (x :: l) := by
  intro l
  induction l with
  | nil => simp [insertStable]
  | cons y ys ih =>
    rw [insertStable]
    by_cases hxy : bef x y
    · rw [if_pos hxy]
    · rw [if_neg hxy]
      exact (List.Perm.cons y ih).trans (List.Perm.swap x y ys)

theorem sortStable_perm (bef : α → α → Bool) :
    ∀ (l : List α), (sortStable bef l).Perm l := by
  intro l
  induction l with
  | nil => simp [sortStable]
  | cons x xs ih =>
    rw [sortStable]
    exact (insertStable_perm bef x (sortStable bef xs)).trans (List.Perm.cons x ih)

theorem insertStable_pairwise (bef : α → α → Bool)
    (htot : ∀ a b, bef a b = true ∨ bef b a = true)
    (htrans : ∀ a b c, bef a b = true → bef b c = true → bef a c = true)
    (x : α) :
    ∀ (l : List α), l.Pairwise (fun a b => bef a b = true) →
      (insertStable bef x l).Pairwise (fun a b => bef a b = true) := by
  intro l
  induction l with
  | nil => intro _; simp [insertStable]
  | cons y ys ih =>
    intro hl
    rw [List.pairwise_cons] at hl
    obtain ⟨hy, hys⟩ := hl
    rw [insertStable]
    by_cases hxy : bef x y
    · rw [if_pos hxy]
      rw [List.pairwise_cons]
      refine ⟨?_, List.pairwise_cons.mpr ⟨hy, hys⟩⟩
      intro a ha
      rcases List.mem_cons.mp ha with rfl | ha
      · exact hxy
      · exact htrans x y a hxy (hy a ha)
    · rw [if_neg hxy]
      rw [List.pairwise_cons]
      refine ⟨?_, ih hys⟩
      intro a ha
      rcases (mem_insertStable bef x ys a).mp ha with rfl | ha
      · rcases htot a y with h | h
        · exact absurd h hxy
        · exact h
      · exact hy a ha

theorem sortStable_pairwise (bef : α → α → Bool)
    (htot : ∀ a b, bef a b = true ∨ bef b a = true)
    (htrans : ∀ a b c, bef a b = true → bef b c = true → bef a c = true) :
    ∀ (l : List α), (sortStable bef l).Pairwise (fun a b => bef a b = true) := by
  intro l
  induction l with
  | nil => simp [sortStable]
  | cons x xs ih =>
    rw [sortStable]
    exact insertStable_pairwise bef htot htrans x (sortStable bef xs) ih

/-! ### Claim C6 -/

/-- Claim C6, amended.  Whenever the initial search succeeds, the rerank call
succeeds and returns `min(rerank_top_k, n)` results, where `n` is the number
of initial candidates; every returned result is an initial candidate carrying
the recomputed score — the similarity of the query embedding against the
candidate's re-embedded stored text; the results are in non-increasing
recomputed-score order; and together with the dropped candidates they form a
permutation of the rescored candidate set.  Ties are NOT broken by ascending
chunk_id: the sort is Python's stable sort, which keeps tied candidates in
the initial search order (see the counterexample). -/
theorem rerank_semantics (σ : Type) (B : Backend σ) (s : σ) (q : PyStr)
    (n k : Nat) (initial : List QueryResult)
    (hs : search B s q n none 0 = .ok initial) :
    ∃ out, semantic_search_with_reranking B s q n k = .ok out ∧
      out.length = min k initial.length ∧
      List.Pairwise (fun a b : QueryResult =>
        b.similarity_score ≤ a.similarity_score) out ∧
      (∀ r ∈ out, ∃ c ∈ initial, r = rescoreWith B q c) ∧
      ∃ rest, (out ++ rest).Perm (initial.map (rescoreWith B q)) := by
  rw [semantic_search_with_reranking]
  simp only [hs]
  by_cases hempty : initial.isEmpty
  · rw [if_pos hempty]
    rw [List.isEmpty_iff] at hempty
    subst hempty
    exact ⟨[], rfl, by simp, by simp, by simp, ⟨[], by simp⟩⟩
  · rw [if_neg hempty]
    have htot : ∀ a b : QueryResult, befScore a b = true ∨ befScore b a = true := by
      intro a b
      simp only [befScore, decide_eq_true_eq]
      exact le_total _ _
    have htrans : ∀ a b c : QueryResult, befScore a b = true → befScore b c = true →
        befScore a c = true := by
      intro a b c hab hbc
      simp only [befScore, decide_eq_true_eq] at hab hbc ⊢
      exact le_trans hbc hab
    have hperm : (sortStable befScore (initial.map (rescoreWith B q))).Perm
        (initial.map (rescoreWith B q)) := sortStable_perm befScore _
    refine ⟨(sortStable befScore (initial.map (rescoreWith B q))).take k, rfl, ?_, ?_, ?_,
      ⟨(sortStable befScore (initial.map (rescoreWith B q))).drop k, ?_⟩⟩
    · rw [List.length_take, hperm.length_eq, List.length_map]
    · have hpw := sortStable_pairwise befScore htot htrans (initial.map (rescoreWith B q))
      have hpw' : (sortStable befScore (initial.map (rescoreWith B q))).Pairwise
          (fun a b : QueryResult => b.similarity_score ≤ a.similarity_score) := by
        refine hpw.imp ?_
        intro a b hab
        simpa [befScore] using hab
      exact hpw'.sublist (List.take_sublist _ _)
    · intro r hr
      have h1 : r ∈ sortStable befScore (initial.map (rescoreWith B q)) :=
        (List.take_sublist _ _).subset hr
      have h2 : r ∈ initial.map (rescoreWith B q) := hperm.mem_iff.mp h1
      rw [List.mem_map] at h2
      obtain ⟨c, hc, rfl⟩ := h2
      exact ⟨c, hc, rfl⟩
    · rw [List.take_append_drop]
      exact hperm

/-- Tiny concrete metadata record for counterexample stores. -/
def metaCE : ChunkMeta :=
  { extra := [], parent_doc_id := [], chunk_index := 0, chunk_count := 0 }

/-- A store hit with the given one-character id and content, at distance 0. -/
def hitCE (c : Char) : Hit :=
  { id := [c], content := [c], meta := metaCE, distance := some 0 }

/-- Backend whose store returns the hits `"b"` then `"a"` and whose
similarity function scores every pair equally, producing a rerank tie. -/
def tieBackend : Backend Unit where
  encodeOne := fun _ => []
  sim := fun _ _ => 0
  add := fun _ _ => .error .storeError
  get_where := fun _ _ => .ok []
  delete_ids := fun s _ => .ok s
  query := fun _ _ _ _ => .ok [hitCE 'b', hitCE 'a']

/-- A query result with a one-character id and content and the given score. -/
def qrCE (c : Char) (v : ℚ) : QueryResult :=
  { document_id := [c], content := [c], similarity_score := v, metadata := metaCE }

/-- Claim C6, counterexample to the tie-break.  Both candidates get the same
recomputed score (a tie), the initial order is `"b"` before `"a"`, and the
rerank returns them unchanged in that order even though ascending chunk_id
would require `"a"` (the smaller id, `'a' < 'b'`) first. -/
theorem rerank_tie_keeps_initial_order :
    semantic_search_with_reranking tieBackend () ['q'] 5 2 =
      .ok [qrCE 'b' 0, qrCE 'a' 0] ∧ ('a' < 'b') := by
  constructor
  · have hs : search tieBackend () ['q'] 5 none 0 = .ok [qrCE 'b' 1, qrCE 'a' 1] := by
      simp [search, tieBackend, similarity_from_distance, hitCE, metaCE, qrCE]
    rw [semantic_search_with_reranking, hs]
    simp [sortStable, insertStable, befScore, rescoreWith, tieBackend, qrCE, metaCE]
  · decide

/-- Witness for `rerank_semantics` at a concrete input. -/
theorem rerank_semantics_witness :
    ∃ out, semantic_search_with_reranking tieBackend () ['q'] 5 2 = .ok out ∧
      out.length = min 2 [qrCE 'b' 1, qrCE 'a' 1].length ∧
      List.Pairwise (fun a b : QueryResult =>
        b.similarity_score ≤ a.similarity_score) out ∧
      (∀ r ∈ out, ∃ c ∈ [qrCE 'b' 1, qrCE 'a' 1], r = rescoreWith tieBackend ['q'] c) ∧
      ∃ rest, (out ++ rest).Perm
        ([qrCE 'b' 1, qrCE 'a' 1].map (rescoreWith tieBackend ['q'])) :=
  rerank_semantics Unit tieBackend () ['q'] 5 2 [qrCE 'b' 1, qrCE 'a' 1]
    (by simp [search, tieBackend, similarity_from_distance, hitCE, metaCE, qrCE])

/-! ### Claim C2 -/

theorem length_filterMap_ite {p : α → Prop} [DecidablePred p] (f : α → β) :
    ∀ (l : List α),
      (l.filterMap (fun a => if p a then some (f a) else none)).length =
        (l.filter (fun a => decide (p a))).length := by
  intro l
  induction l with
  | nil => rfl
  | cons x xs ih =>
    by_cases hx : p x <;> simp [hx, ih]

/-- Claim C2.  Assuming the vector store honours its contract and returns at
most `n_results` hits, `search` succeeds; every returned result satisfies
`min_similarity <= similarity_score`; at most `n_results` results are
returned; every result comes from a hit and carries the score
`similarity_from_distance` of that hit's distance (which for a present
distance `d` is `1 - d`, last conjunct); and exactly the hits whose converted
score reaches `min_similarity` are kept. -/
theorem search_results_bounded (σ : Type) (B : Backend σ) (s : σ) (q : PyStr)
    (n : Nat) (filt : Option MetaDict) (ms : ℚ) (hits : List Hit)
    (hq : B.query s (B.encodeOne q) n filt = .ok hits)
    (hlen : hits.length ≤ n) :
    ∃ results, search B s q n filt ms = .ok results ∧
      results.length ≤ n ∧
      (∀ r ∈ results, ms ≤ r.similarity_score) ∧
      (∀ r ∈ results, ∃ h ∈ hits, r.document_id = h.id ∧ r.content = h.content ∧
        r.metadata = h.meta ∧
        r.similarity_score = similarity_from_distance h.distance) ∧
      results.length =
        (hits.filter (fun h => decide (ms ≤ similarity_from_distance h.distance))).length ∧
      (∀ d : ℚ, similarity_from_distance (some d) = 1 - d) := by
  rw [search]
  simp only [hq]
  refine ⟨_, rfl, ?_, ?_, ?_, ?_, fun d => rfl⟩
  · exact le_trans (List.length_filterMap_le _ _) hlen
  · intro r hr
    rw [List.mem_filterMap] at hr
    obtain ⟨h, _, heq⟩ := hr
    by_cases hcond : ms ≤ similarity_from_distance h.distance
    · rw [if_pos hcond] at heq
      cases heq
      exact hcond
    · rw [if_neg hcond] at heq
      cases heq
  · intro r hr
    rw [List.mem_filterMap] at hr
    obtain ⟨h, hh, heq⟩ := hr
    by_cases hcond : ms ≤ similarity_from_distance h.distance
    · rw [if_pos hcond] at heq
      cases heq
      exact ⟨h, hh, rfl, rfl, rfl, rfl⟩
    · rw [if_neg hcond] at heq
      cases heq
  · exact length_filterMap_ite _ hits

/-- Witness for `search_results_bounded` at a concrete input. -/
theorem search_results_bounded_witness :
    ∃ results, search tieBackend () ['q'] 5 none 0 = .ok results ∧
      results.length ≤ 5 ∧
      (∀ r ∈ results, (0 : ℚ) ≤ r.similarity_score) ∧
      (∀ r ∈ results, ∃ h ∈ [hitCE 'b', hitCE 'a'], r.document_id = h.id ∧
        r.content = h.content ∧ r.metadata = h.meta ∧
        r.similarity_score = similarity_from_distance h.distance) ∧
      results.length =
        ([hitCE 'b', hitCE 'a'].filter
          (fun h => decide ((0 : ℚ) ≤ similarity_from_distance h.distance))).length ∧
      (∀ d : ℚ, similarity_from_distance (some d) = 1 - d) :=
  search_results_bounded Unit tieBackend () ['q'] 5 none 0 [hitCE 'b', hitCE 'a']
    rfl (by decide)

/-! ### Claim C7 -/

/-- Claim C7, amended.  `add_documents_batch` has no per-document error
handling: if ingesting a document fails, the exception propagates out of the
whole batch call — the remaining documents are not attempted and no
per-document failure report is produced.  Stated for the first document of
the list (for every tail, every backend, every positive batch size); the
counterexample shows the same abort with a failing document in the middle of
a batch. -/
theorem batch_failure_aborts (σ : Type) (B : Backend σ) (s : σ) (d : Doc)
    (rest : List Doc) (cs bs : Nat) (e : PyErr) (hbs : 0 < bs)
    (herr : add_document B s d.content d.id d.metadata cs = .error e) :
    add_documents_batch B s (d :: rest) cs bs = .error e := by
  rw [add_documents_batch, if_neg (by omega)]
  have hk : 0 < pyRangeLen (d :: rest).length bs :=
    pyRangeLen_pos _ _ hbs (by simp)
  obtain ⟨k, hk'⟩ : ∃ k, pyRangeLen (d :: rest).length bs = k + 1 :=
    ⟨pyRangeLen (d :: rest).length bs - 1, by omega⟩
  rw [hk', List.range'_succ]
  obtain ⟨b', rfl⟩ : ∃ b', bs = b' + 1 := ⟨bs - 1, by omega⟩
  simp only [List.map_cons, List.drop_zero, List.take_succ_cons]
  rw [ingest_batches, ingest_docs]
  simp only [herr]

/-- Store that fails exactly when a record of the document `"d2"` is added:
used to exhibit a mid-batch per-document failure. -/
def failDoc2Backend : Backend (List ChunkRec) where
  encodeOne := fun _ => []
  sim := fun _ _ => 0
  add := fun s recs =>
    if recs.any (fun r => decide (r.meta.parent_doc_id = ['d', '2'])) then
      .error .storeError
    else .ok (s ++ recs)
  get_where := fun _ _ => .ok []
  delete_ids := fun s _ => .ok s
  query := fun _ _ _ _ => .ok []

/-- Claim C7, counterexample.  In a batch of three documents where the second
one fails to ingest (its store write fails), the whole call returns that
error: the third document is never attempted and no `{doc_id, error}` report
accompanies the first document's chunk ids. -/
theorem batch_middle_failure_aborts :
    add_documents_batch failDoc2Backend []
      [{ id := ['d', '1'], content := ['a'], metadata := [] },
       { id := ['d', '2'], content := ['b'], metadata := [] },
       { id := ['d', '3'], content := ['c'], metadata := [] }] 51 100 =
      .error .storeError := rfl

/-- Witness for `batch_failure_aborts` at a concrete input. -/
theorem batch_failure_aborts_witness :
    add_documents_batch failDoc2Backend []
      [{ id := ['d', '2'], content := ['b'], metadata := [] },
       { id := ['d', '3'], content := ['c'], metadata := [] }] 51 100 =
      .error .storeError :=
  batch_failure_aborts (List ChunkRec) failDoc2Backend []
    { id := ['d', '2'], content := ['b'], metadata := [] }
    [{ id := ['d', '3'], content := ['c'], metadata := [] }] 51 100 .storeError
    (by decide) rfl

/-! ### Claim C8 -/

/-- Claim C8.  Over the ChromaDB model, `delete_document` removes every
stored chunk whose `parent_doc_id` equals the argument — afterwards no chunk
with that parent remains — and returns `true` exactly when at least one such
chunk existed (so `false`, and no exception, when none did). -/
theorem delete_document_removes_parent (enc : PyStr → Vec)
    (simf distf : Vec → Vec → ℚ) (s : List ChunkRec) (doc_id : PyStr) :
    (∀ r ∈ (delete_document (chromaBackend enc simf distf) s doc_id).2,
        ¬ r.meta.parent_doc_id = doc_id) ∧
    ((delete_document (chromaBackend enc simf distf) s doc_id).1 = true ↔
      ∃ r ∈ s, r.meta.parent_doc_id = doc_id) := by
  rw [delete_document]
  simp only [chromaBackend_get_where]
  by_cases hemp : (s.filter (fun r => decide (r.meta.parent_doc_id = doc_id))).isEmpty
  · rw [if_pos hemp]
    rw [List.isEmpty_iff] at hemp
    constructor
    · intro r hr hpar
      have hrM : r ∈ s.filter (fun r => decide (r.meta.parent_doc_id = doc_id)) :=
        List.mem_filter.mpr ⟨hr, by simp [hpar]⟩
      rw [hemp] at hrM
      cases hrM
    · constructor
      · intro hcontra
        cases hcontra
      · rintro ⟨r, hr, hpar⟩
        have hrM : r ∈ s.filter (fun r => decide (r.meta.parent_doc_id = doc_id)) :=
          List.mem_filter.mpr ⟨hr, by simp [hpar]⟩
        rw [hemp] at hrM
        cases hrM
  · rw [if_neg hemp]
    simp only [chromaBackend_delete_ids]
    constructor
    · intro r hr hpar
      have hmem := List.mem_filter.mp hr
      have hrM : r ∈ s.filter (fun r => decide (r.meta.parent_doc_id = doc_id)) :=
        List.mem_filter.mpr ⟨hmem.1, by simp [hpar]⟩
      have hid : r.id ∈ (s.filter
          (fun r => decide (r.meta.parent_doc_id = doc_id))).map (fun r => r.id) :=
        List.mem_map.mpr ⟨r, hrM, rfl⟩
      have hcond := hmem.2
      simp only [Bool.not_eq_true', decide_eq_false_iff_not] at hcond
      exact hcond hid
    · simp only [true_iff]
      rw [List.isEmpty_iff] at hemp
      obtain ⟨r, hrM⟩ := List.exists_mem_of_ne_nil _ hemp
      have := List.mem_filter.mp hrM
      exact ⟨r, this.1, by simpa using this.2⟩

/-- Concrete one-chunk record used by the delete witnesses: id `"x"`, parent
document `"d"`. -/
def recX : ChunkRec :=
  { id := ['x'], content := ['x'], embedding := [],
    meta := { extra := [], parent_doc_id := ['d'], chunk_index := 0,
              chunk_count := 1 } }

/-- Witness for `delete_document_removes_parent` at a concrete store. -/
theorem delete_document_removes_parent_witness :
    (∀ r ∈ (delete_document (chromaBackend encZero simZero simZero) [recX] ['d']).2,
      ¬ r.meta.parent_doc_id = ['d']) ∧
    ((delete_document (chromaBackend encZero simZero simZero) [recX] ['d']).1 = true ↔
      ∃ r ∈ [recX], r.meta.parent_doc_id = ['d']) :=
  delete_document_removes_parent encZero simZero simZero [recX] ['d']

/-! ### Claim C10 -/

/-- Claim C10.  `delete_document` swallows every store exception: if the
lookup fails, or the lookup succeeds with matching chunks but the delete
fails, the call returns `false` — exactly what it returns when no matching
chunks exist (third conjunct), so a store failure is indistinguishable at the
public interface from deleting a nonexistent document. -/
theorem delete_document_never_raises (σ : Type) (B : Backend σ) (s : σ)
    (doc_id : PyStr) :
    ((∃ e, B.get_where s doc_id = .error e) →
      (delete_document B s doc_id).1 = false) ∧
    (∀ recs e, B.get_where s doc_id = .ok recs → recs.isEmpty = false →
      B.delete_ids s (recs.map (fun r => r.id)) = .error e →
      (delete_document B s doc_id).1 = false) ∧
    (B.get_where s doc_id = .ok [] → (delete_document B s doc_id).1 = false) := by
  refine ⟨?_, ?_, ?_⟩
  · rintro ⟨e, he⟩
    rw [delete_document]
    simp only [he]
  · intro recs e hget hne hdel
    rw [delete_document]
    simp only [hget, hne, Bool.false_eq_true, if_false, hdel]
  · intro hget
    rw [delete_document]
    simp only [hget, List.isEmpty_nil, if_true]

/-- Backend whose lookup always fails. -/
def getFailBackend : Backend Unit where
  encodeOne := fun _ => []
  sim := fun _ _ => 0
  add := fun s _ => .ok s
  get_where := fun _ _ => .error .storeError
  delete_ids := fun s _ => .ok s
  query := fun _ _ _ _ => .ok []

/-- Backend whose lookup finds one chunk but whose delete always fails. -/
def deleteFailBackend : Backend Unit where
  encodeOne := fun _ => []
  sim := fun _ _ => 0
  add := fun s _ => .ok s
  get_where := fun _ _ => .ok [recX]
  delete_ids := fun _ _ => .error .storeError
  query := fun _ _ _ _ => .ok []

/-- Witness for `delete_document_never_raises` on both error paths. -/
theorem delete_document_never_raises_witness :
    (delete_document getFailBackend () ['d']).1 = false ∧
    (delete_document deleteFailBackend () ['d']).1 = false :=
  ⟨(delete_document_never_raises Unit getFailBackend () ['d']).1 ⟨.storeError, rfl⟩,
   (delete_document_never_raises Unit deleteFailBackend () ['d']).2.1
     [recX] .storeError rfl rfl rfl⟩

end Rag
